import Mathlib

/-!
# Verification of the `nmc` node_modules scanner

A shallow embedding of `src/scanner.ts` (and the pipeline helpers of the CLI
entry point): the directory-tree scanner `findNodeModules`, the bulk size
resolver `getDirectorySizes`, and the pure result pipeline `sortByAge`,
`sortBySize`, `filterByAge`.

Modelling conventions:
* Filesystem paths are lists of name components (`join(a, b)` becomes
  `a ++ [b]`); "p is an ancestor of q" is strict list prefix.
* A directory tree is the inductive `FSEntry`; a directory carries its name,
  its mtime (milliseconds since epoch, as in JS `Date.getTime()`), a
  `readable` flag (whether `readdir` succeeds on it) and its children.
* `Date` values are their millisecond timestamps (`Int`).
* The traversal in the source runs workers over a shared queue; matched
  directories are never enqueued, and the set of matches is independent of
  scheduling (the spec's own determinism guarantee), so the embedding
  computes the match list by structural recursion over the tree in
  sibling order.
-/

namespace Nmc

/-- One discovered `node_modules` directory (`NodeModulesInfo` in
`src/scanner.ts`): its path, optional size in bytes (`number | null`,
`null` until the size resolver runs), and the mtime captured at discovery. -/
structure NodeModulesInfo where
  path : List String
  size : Option Int
  modifiedAt : Int
  deriving DecidableEq, Repr

/-- A directory tree entry: a file, or a directory with a name, an mtime,
a readability flag (does `readdir` succeed on it) and children. -/
inductive FSEntry where
  | file (name : String) : FSEntry
  | dir (name : String) (mtime : Int) (readable : Bool) (children : List FSEntry) : FSEntry

/-- `entry.name.startsWith(".")` from the source: true iff the first
character of the name is `'.'`. -/
def startsWithDot (s : String) : Bool :=
  match s.data with
  | [] => false
  | c :: _ => c == '.'

/-- The body of `processPath` in `findNodeModules` (src/scanner.ts lines
61-92), folded over the whole tree.  For each child entry of the directory
at `path`: files are skipped, hidden entries (leading `.`) are skipped, a
child directory named `node_modules` is emitted as a match (with the path
`join(currentPath, entry.name)` and its mtime) and is NOT descended into,
and any other child directory is enqueued for traversal — here: recursed
into.  A directory whose `readdir` fails (`readable = false`) contributes
no matches from its subtree (the `catch { return; }` branch). -/
def scanChildren (path : List String) : List FSEntry → List NodeModulesInfo
  | [] => []
  | .file _ :: rest => scanChildren path rest
  | .dir n m r cs :: rest =>
    if startsWithDot n then
      scanChildren path rest
    else if n == "node_modules" then
      { path := path ++ [n], size := none, modifiedAt := m } :: scanChildren path rest
    else
      (if r then scanChildren (path ++ [n]) cs else []) ++ scanChildren path rest

/-- `findNodeModules(rootPath)` (src/scanner.ts lines 48-121).  The queue is
seeded with the root path; the first `processPath` call lists the root's
children.  `fs` is what sits at the root path: `none` if the path does not
exist.  A nonexistent root, a non-directory root, or an unreadable root
directory makes the initial `readdir` throw, which is caught and yields no
work, so the scan returns `[]`.  Note `processPath` only inspects the names
of *child* entries: the root's own name is never compared against
`node_modules`. -/
def findNodeModules (rootPath : List String) (fs : Option FSEntry) : List NodeModulesInfo :=
  match fs with
  | none => []
  | some (.file _) => []
  | some (.dir _ _ r cs) => if r then scanChildren rootPath cs else []

/-- Every match emitted from children of `path` lies strictly below `path`:
its path is `path ++ u ++ ["node_modules"]` where no intermediate component
`u` is itself `node_modules` (matched directories are never descended
into). -/
theorem scanChildren_path_shape (path : List String) (cs : List FSEntry) (r : NodeModulesInfo)
    (hr : r ∈ scanChildren path cs) :
    ∃ u : List String, "node_modules" ∉ u ∧ r.path = path ++ u ++ ["node_modules"] := by
  induction path, cs using scanChildren.induct with
  | case1 path =>
    simp [scanChildren] at hr
  | case2 path name rest ih =>
    exact ih (by simpa [scanChildren] using hr)
  | case3 path n m rd cs rest hdot ih =>
    exact ih (by simpa [scanChildren, hdot] using hr)
  | case4 path n m rd cs rest hdot hnm ih =>
    rw [scanChildren, if_neg (by simp [hdot]), if_pos hnm] at hr
    rcases List.mem_cons.mp hr with h | h
    · refine ⟨[], by simp, ?_⟩
      have hn : n = "node_modules" := by simpa using hnm
      subst h
      simp [hn]
    · exact ih h
  | case5 path n m rd cs rest hdot hnm ih1 ih2 =>
    rw [scanChildren, if_neg (by simp [hdot]), if_neg hnm] at hr
    rcases List.mem_append.mp hr with h | h
    · by_cases hrd : rd
      · rw [if_pos hrd] at h
        obtain ⟨u, hu, hpath⟩ := ih1 h
        refine ⟨n :: u, ?_, ?_⟩
        · intro hmem
          rcases List.mem_cons.mp hmem with h1 | h1
          · exact hnm (by simp [h1])
          · exact hu h1
        · simpa [List.append_assoc] using hpath
      · rw [if_neg hrd] at h
        simp at h
    · exact ih2 h

/-- C2: For every directory tree, the matches returned by one scan form an
antichain under the filesystem descendant-of order: no returned match's
path is a (strict) ancestor of another returned match's path — and hence,
by symmetry of the statement in `p` and `q`, none is a descendant of
another either. -/
theorem findNodeModules_antichain (rootPath : List String) (fs : Option FSEntry)
    (p q : NodeModulesInfo) (hp : p ∈ findNodeModules rootPath fs)
    (hq : q ∈ findNodeModules rootPath fs) (hne : p.path ≠ q.path) :
    ¬ p.path <+: q.path := by
  intro hpre
  cases fs with
  | none => simp [findNodeModules] at hp
  | some e =>
    cases e with
    | file n => simp [findNodeModules] at hp
    | dir n m rd cs =>
      rw [findNodeModules] at hp hq
      by_cases hrd : rd
      · rw [if_pos hrd] at hp hq
        obtain ⟨u, hu, hup⟩ := scanChildren_path_shape _ _ _ hp
        obtain ⟨v, hv, hvp⟩ := scanChildren_path_shape _ _ _ hq
        rw [hup, hvp] at hpre hne
        rw [List.append_assoc, List.append_assoc] at hpre
        have h1 : u ++ ["node_modules"] <+: v ++ ["node_modules"] :=
          (List.prefix_append_right_inj rootPath).mp hpre
        rcases List.prefix_concat_iff.mp h1 with h2 | h2
        · exact hne (by rw [List.append_assoc, List.append_assoc, h2])
        · exact hv (h2.subset (by simp))
      · rw [if_neg hrd] at hp
        simp at hp

/-- Closed instantiation of `findNodeModules_antichain` on a concrete tree:
scanning `root` containing `a/node_modules` and `b/node_modules` yields the
two matches, and the first is not a prefix of the second. -/
theorem findNodeModules_antichain_witness :
    ¬ (["r", "a", "node_modules"] : List String) <+: ["r", "b", "node_modules"] := by
  have h := findNodeModules_antichain ["r"]
    (some (.dir "root" 0 true
      [.dir "a" 1 true [.dir "node_modules" 10 true []],
       .dir "b" 2 true [.dir "node_modules" 20 true []]]))
    { path := ["r", "a", "node_modules"], size := none, modifiedAt := 10 }
    { path := ["r", "b", "node_modules"], size := none, modifiedAt := 20 }
    (by simp [findNodeModules, scanChildren, startsWithDot])
    (by simp [findNodeModules, scanChildren, startsWithDot])
    (by simp)
  exact h

/-- The concrete tree of the end-to-end test:
`root/a/node_modules/`, `root/b/node_modules/c/node_modules/`,
`root/.hidden/node_modules/`. -/
def treeC3 : FSEntry :=
  .dir "root" 0 true
    [ .dir "a" 1 true [ .dir "node_modules" 10 true [] ]
    , .dir "b" 2 true
        [ .dir "node_modules" 20 true [ .dir "c" 3 true [ .dir "node_modules" 30 true [] ] ] ]
    , .dir ".hidden" 4 true [ .dir "node_modules" 40 true [] ] ]

/-- C3: Scanning the tree `root/a/node_modules/`,
`root/b/node_modules/c/node_modules/`, `root/.hidden/node_modules/` returns
exactly the two matches `root/a/node_modules` and `root/b/node_modules`:
the `node_modules` nested under `c` is pruned away and the one under the
hidden directory is excluded. -/
theorem findNodeModules_end_to_end :
    (findNodeModules ["root"] (some treeC3)).map (·.path) =
      [["root", "a", "node_modules"], ["root", "b", "node_modules"]] := by
  simp [findNodeModules, treeC3, scanChildren, startsWithDot]

/-- C4: For every root path that does not exist, is not a directory, or is
an unreadable directory, the scan returns the empty list.  (No error can be
surfaced: the embedding of `findNodeModules` is a total function into
`List NodeModulesInfo`, mirroring the source's `catch { return; }` around
the root `readdir`.) -/
theorem findNodeModules_invalid_root (rootPath : List String) (fs : Option FSEntry)
    (h : fs = none ∨ (∃ n, fs = some (.file n)) ∨
         ∃ n m cs, fs = some (.dir n m false cs)) :
    findNodeModules rootPath fs = [] := by
  rcases h with h | ⟨n, h⟩ | ⟨n, m, cs, h⟩ <;> subst h <;> simp [findNodeModules]

/-- Closed instantiation of `findNodeModules_invalid_root` at a nonexistent
root. -/
theorem findNodeModules_invalid_root_witness :
    findNodeModules ["no", "such", "path"] none = [] :=
  findNodeModules_invalid_root ["no", "such", "path"] none (Or.inl rfl)

/-- A root directory that is itself named `node_modules`, with one ordinary
child directory. -/
def rootNamedNodeModules : FSEntry :=
  .dir "node_modules" 0 true [.dir "x" 1 true []]

/-- C1 counterexample: scanning a root that is itself a directory named
`node_modules` returns no match at all — in particular no `MatchRecord`
whose path is the root itself, contradicting the claim that the root "is
still matched". -/
theorem findNodeModules_root_named_target_counterexample :
    findNodeModules ["p", "node_modules"] (some rootNamedNodeModules) = [] := by
  simp [findNodeModules, rootNamedNodeModules, scanChildren, startsWithDot]

/-- C1 (amended): The root path is never itself returned as a match: the
scan only compares the names of child entries against `node_modules`, so
every returned match's path strictly extends the root path, and the result
of the scan does not depend on the root directory's own name (even when
that name is exactly `node_modules`, the root is traversed like any other
starting directory). -/
theorem findNodeModules_root_never_matched :
    (∀ (rootPath : List String) (fs : Option FSEntry) (r : NodeModulesInfo),
       r ∈ findNodeModules rootPath fs → rootPath <+: r.path ∧ rootPath ≠ r.path) ∧
    (∀ (rootPath : List String) (n₁ n₂ : String) (m₁ m₂ : Int) (rd : Bool)
       (cs : List FSEntry),
       findNodeModules rootPath (some (.dir n₁ m₁ rd cs)) =
         findNodeModules rootPath (some (.dir n₂ m₂ rd cs))) := by
  constructor
  · intro rootPath fs r hr
    cases fs with
    | none => simp [findNodeModules] at hr
    | some e =>
      cases e with
      | file n => simp [findNodeModules] at hr
      | dir n m rd cs =>
        rw [findNodeModules] at hr
        by_cases hrd : rd
        · rw [if_pos hrd] at hr
          obtain ⟨u, _, hup⟩ := scanChildren_path_shape _ _ _ hr
          constructor
          · exact ⟨u ++ ["node_modules"], by simp [hup]⟩
          · intro hEq
            have : rootPath.length = r.path.length := by rw [hEq]
            simp [hup] at this
        · rw [if_neg hrd] at hr
          simp at hr
  · intro rootPath n₁ n₂ m₁ m₂ rd cs
    rfl

/-- Closed instantiation of `findNodeModules_root_never_matched`: the one
match under root `["p"]` has `["p"]` as a strict prefix. -/
theorem findNodeModules_root_never_matched_witness :
    ["p"] <+: ["p", "q", "node_modules"] ∧ ["p"] ≠ ["p", "q", "node_modules"] := by
  have h := findNodeModules_root_never_matched.1 ["p"]
    (some (.dir "p" 0 true [.dir "q" 1 true [.dir "node_modules" 5 true []]]))
    { path := ["p", "q", "node_modules"], size := none, modifiedAt := 5 }
    (by simp [findNodeModules, scanChildren, startsWithDot])
  exact h

/-! ## Bulk Size Resolver: `getDirectorySizes` (src/scanner.ts lines 12-46)

The sizes `Map<string, number | null>` is modelled as an insertion-ordered
association list.  A stored value is a byte count, `NaN` (JS `parseInt`
failing on the text before the tab and then being multiplied by 1024), or
`null` (unknown).  Strings are processed at the character-list level so all
definitions compute by structural recursion. -/

/-- A value of the `Map<string, number | null>` built by
`getDirectorySizes`: a byte count, `NaN`, or `null`. -/
inductive SizeVal where
  | num (bytes : Int)
  | nan
  | null
  deriving DecidableEq, Repr

/-- The sizes map: insertion-ordered key/value pairs, as a JS `Map`. -/
abbrev SizeMap := List (String × SizeVal)

/-- `results.has(path)`. -/
def mapHas (m : SizeMap) (k : String) : Bool :=
  match m with
  | [] => false
  | p :: rest => p.1 == k || mapHas rest k

/-- `results.set(path, v)`: replace the entry in place if the key is
present, otherwise append a new entry. -/
def mapSet (m : SizeMap) (k : String) (v : SizeVal) : SizeMap :=
  match m with
  | [] => [(k, v)]
  | p :: rest => if p.1 == k then (k, v) :: rest else p :: mapSet rest k v

/-- `results.get(path)`: the value at the first matching key. -/
def mapGet (m : SizeMap) (k : String) : Option SizeVal :=
  match m with
  | [] => none
  | p :: rest => if p.1 == k then some p.2 else mapGet rest k

/-- The whitespace skipped by JS `trim()` / `parseInt` (ASCII portion). -/
def isJsSpace (c : Char) : Bool :=
  c == ' ' || c == '\t' || c == '\n' || c == '\r' || c == '\x0b' || c == '\x0c'

/-- `output.trim()`: strip leading and trailing whitespace. -/
def jsTrim (l : List Char) : List Char :=
  ((l.dropWhile isJsSpace).reverse.dropWhile isJsSpace).reverse

/-- `.split("\n")`: split at every newline; the empty string yields
`[""]`. -/
def splitOnNewline : List Char → List (List Char)
  | [] => [[]]
  | c :: rest =>
    let r := splitOnNewline rest
    if c = '\n' then [] :: r
    else
      match r with
      | [] => [[c]]
      | h :: t => (c :: h) :: t

/-- `line.indexOf("\t")` combined with the two `slice`s: `none` when the
line has no tab, otherwise the text before the first tab and the text
after it. -/
def splitAtTab : List Char → Option (List Char × List Char)
  | [] => none
  | c :: rest =>
    if c = '\t' then some ([], rest)
    else (splitAtTab rest).map (fun p => (c :: p.1, p.2))

/-- The decimal value accumulated left to right, as JS `parseInt` does on
a digit run. -/
def digitsToNat (l : List Char) : Nat :=
  l.foldl (fun acc c => 10 * acc + (c.toNat - 48)) 0

/-- JS `parseInt(s, 10)`: skip leading whitespace, an optional sign, then
the maximal run of ASCII decimal digits; `none` (`NaN`) when that run is
empty, the rest of the string is ignored. -/
def jsParseInt10 (l : List Char) : Option Int :=
  let t := l.dropWhile isJsSpace
  let sr : Int × List Char :=
    match t with
    | [] => (1, [])
    | c :: cs => if c = '-' then (-1, cs) else if c = '+' then (1, cs) else (1, t)
  let ds := sr.2.takeWhile Char.isDigit
  if ds = [] then none else some (sr.1 * (digitsToNat ds : Int))

/-- One iteration of the output-parsing loop (src/scanner.ts lines 26-33):
falsy (empty) lines are skipped, lines without a tab are skipped
(`tabIndex === -1`); otherwise the text before the first tab is parsed
with `parseInt(-, 10)` as a kilobyte count, the text after it is the path,
and `path ↦ kb * 1024` is stored (`NaN * 1024` is `NaN`). -/
def processLine (m : SizeMap) (line : List Char) : SizeMap :=
  if line.isEmpty then m
  else
    match splitAtTab line with
    | none => m
    | some (pre, post) =>
      let v : SizeVal :=
        match jsParseInt10 pre with
        | none => SizeVal.nan
        | some kb => SizeVal.num (kb * 1024)
      mapSet m (String.mk post) v

/-- The whole parse of the external tool's stdout:
`output.trim().split("\n")`, folded through `processLine`. -/
def parseDuOutput (output : String) : SizeMap :=
  (splitOnNewline (jsTrim output.data)).foldl processLine []

/-- The final loop of `getDirectorySizes` (lines 39-43): mark any input
path that was not resolved as `null`. -/
def fillMissing (m : SizeMap) (dirPaths : List String) : SizeMap :=
  dirPaths.foldl (fun acc p => if mapHas acc p then acc else mapSet acc p .null) m

/-- `getDirectorySizes(dirPaths)` (src/scanner.ts lines 12-46).
`duResult` is the outcome of the single external
`xargs -P … du -sk` invocation: `none` when it throws (spawn failure or
nonzero exit — the `catch` leaves the map as built so far, which is empty),
`some out` its stdout text otherwise.  The `Bool` of the result records
whether the external tool was invoked: with an empty input list the
function returns the empty map *before* the invocation. -/
def getDirectorySizes (dirPaths : List String) (duResult : Option String) :
    SizeMap × Bool :=
  if dirPaths.isEmpty then ([], false)
  else
    let parsed : SizeMap :=
      match duResult with
      | none => []
      | some out => parseDuOutput out
    (fillMissing parsed dirPaths, true)

theorem mapHas_eq (m : SizeMap) (k : String) : mapHas m k = (mapGet m k).isSome := by
  induction m with
  | nil => rfl
  | cons p m ih =>
    by_cases h : p.1 = k
    · simp [mapHas, mapGet, h]
    · simp [mapHas, mapGet, h, ih]

theorem mapGet_mapSet_self (m : SizeMap) (k : String) (v : SizeVal) :
    mapGet (mapSet m k v) k = some v := by
  induction m with
  | nil => simp [mapSet, mapGet]
  | cons p m ih =>
    by_cases h : p.1 = k
    · simp [mapSet, mapGet, h]
    · simp [mapSet, mapGet, h, ih]

theorem mapGet_mapSet_ne (m : SizeMap) (k k' : String) (v : SizeVal) (h : k' ≠ k) :
    mapGet (mapSet m k v) k' = mapGet m k' := by
  induction m with
  | nil => simp [mapSet, mapGet, Ne.symm h]
  | cons p m ih =>
    by_cases hp : p.1 = k
    · simp [mapSet, mapGet, hp, Ne.symm h, h]
    · by_cases hq : p.1 = k'
      · simp [mapSet, mapGet, hp, hq, h]
      · simp [mapSet, mapGet, hp, hq, ih]

/-- A path already resolved keeps its value through the final
mark-missing-as-null loop. -/
theorem fillMissing_get_of_isSome (l : List String) (m : SizeMap) (p : String)
    (h : (mapGet m p).isSome = true) : mapGet (fillMissing m l) p = mapGet m p := by
  induction l generalizing m with
  | nil => rfl
  | cons q l ih =>
    rw [fillMissing, List.foldl_cons, ← fillMissing]
    by_cases hq : mapHas m q
    · rw [if_pos hq]
      exact ih m h
    · rw [if_neg hq]
      have hne : p ≠ q := by
        intro he
        rw [mapHas_eq, ← he] at hq
        exact hq h
      rw [ih (mapSet m q .null) (by rw [mapGet_mapSet_ne m q p .null hne]; exact h)]
      exact mapGet_mapSet_ne m q p .null hne

/-- An input path not resolved by the parse ends up mapped to `null` by the
final loop. -/
theorem fillMissing_get_of_mem (l : List String) (m : SizeMap) (p : String)
    (hmem : p ∈ l) (h : mapGet m p = none) :
    mapGet (fillMissing m l) p = some .null := by
  induction l generalizing m with
  | nil => simp at hmem
  | cons q l ih =>
    rw [fillMissing, List.foldl_cons, ← fillMissing]
    by_cases he : p = q
    · subst he
      have hq : ¬ mapHas m p = true := by rw [mapHas_eq, h]; simp
      rw [if_neg hq]
      have h1 : mapGet (mapSet m p .null) p = some .null := mapGet_mapSet_self m p .null
      rw [fillMissing_get_of_isSome l (mapSet m p .null) p (by rw [h1]; rfl), h1]
    · have hmem' : p ∈ l := by
        rcases List.mem_cons.mp hmem with h1 | h1
        · exact absurd h1 he
        · exact h1
      by_cases hq : mapHas m q
      · rw [if_pos hq]
        exact ih m hmem' h
      · rw [if_neg hq]
        exact ih (mapSet m q .null) hmem'
          (by rw [mapGet_mapSet_ne m q p .null he]; exact h)

/-- C5: In `getDirectorySizes`, every input path absent from the external
tool's parsed output maps to `null` (unknown), not zero; and when the
external pass fails entirely (`duResult = none`), every input path maps to
`null`.  No error can reach the caller: the embedding is a total function
(mirroring the source's `catch {}` around the external invocation). -/
theorem getDirectorySizes_unknown_null :
    (∀ (dirPaths : List String) (out : String) (p : String), p ∈ dirPaths →
        mapGet (parseDuOutput out) p = none →
        mapGet (getDirectorySizes dirPaths (some out)).1 p = some .null) ∧
    (∀ (dirPaths : List String) (p : String), p ∈ dirPaths →
        mapGet (getDirectorySizes dirPaths none).1 p = some .null) := by
  constructor
  · intro dirPaths out p hmem habs
    have hne : dirPaths.isEmpty = false := by
      cases dirPaths
      · simp at hmem
      · simp
    simp only [getDirectorySizes, hne, Bool.false_eq_true, if_false]
    exact fillMissing_get_of_mem dirPaths (parseDuOutput out) p hmem habs
  · intro dirPaths p hmem
    have hne : dirPaths.isEmpty = false := by
      cases dirPaths
      · simp at hmem
      · simp
    simp only [getDirectorySizes, hne, Bool.false_eq_true, if_false]
    exact fillMissing_get_of_mem dirPaths [] p hmem rfl

/-- Closed instantiation of `getDirectorySizes_unknown_null`: a path absent
from an empty `du` output, and a path under a failed `du` run, both map to
`null`. -/
theorem getDirectorySizes_unknown_null_witness :
    mapGet (getDirectorySizes ["/a"] (some "")).1 "/a" = some .null ∧
    mapGet (getDirectorySizes ["/b"] none).1 "/b" = some .null := by
  constructor
  · exact getDirectorySizes_unknown_null.1 ["/a"] "" "/a" (by decide) (by decide)
  · exact getDirectorySizes_unknown_null.2 ["/b"] "/b" (by decide)

/-- C10: `getDirectorySizes` is total over its input: every input path has
an entry in the returned mapping (a byte count, `NaN`, or `null`); and an
empty input list returns the empty mapping with the external measurement
tool never invoked (the `Bool` component of the embedding records the
invocation). -/
theorem getDirectorySizes_total :
    (∀ (dirPaths : List String) (duResult : Option String) (p : String),
        p ∈ dirPaths →
        (mapGet (getDirectorySizes dirPaths duResult).1 p).isSome = true) ∧
    (∀ duResult : Option String, getDirectorySizes [] duResult = ([], false)) := by
  constructor
  · intro dirPaths duResult p hmem
    have hne : dirPaths.isEmpty = false := by
      cases dirPaths
      · simp at hmem
      · simp
    simp only [getDirectorySizes, hne, Bool.false_eq_true, if_false]
    set parsed : SizeMap :=
      match duResult with
      | none => []
      | some out => parseDuOutput out with hp
    by_cases h : (mapGet parsed p).isSome = true
    · rw [fillMissing_get_of_isSome dirPaths parsed p h]
      exact h
    · rw [fillMissing_get_of_mem dirPaths parsed p hmem
        (Option.not_isSome_iff_eq_none.mp (by simpa using h))]
      rfl
  · intro duResult
    rfl

/-- Closed instantiation of `getDirectorySizes_total`. -/
theorem getDirectorySizes_total_witness :
    (mapGet (getDirectorySizes ["/a"] (some "7\t/a")).1 "/a").isSome = true ∧
    getDirectorySizes [] (some "ignored") = ([], false) := by
  constructor
  · exact getDirectorySizes_total.1 ["/a"] (some "7\t/a") "/a" (by decide)
  · exact getDirectorySizes_total.2 (some "ignored")

/-- The value of a string of decimal digits, most significant first
(specification-side definition, via `Nat.ofDigits`). -/
def decimalValue (l : List Char) : Nat :=
  Nat.ofDigits 10 ((l.map fun c => c.toNat - 48).reverse)

theorem digitsToNat_eq_decimalValue (l : List Char) : digitsToNat l = decimalValue l := by
  induction l using List.reverseRecOn with
  | nil => rfl
  | append_singleton l c ih =>
    rw [digitsToNat, List.foldl_append, List.foldl_cons, List.foldl_nil, ← digitsToNat, ih]
    simp [decimalValue, List.map_append, List.reverse_append, Nat.ofDigits_cons]
    ring

theorem splitAtTab_of_not_mem (l : List Char) (h : '\t' ∉ l) : splitAtTab l = none := by
  induction l with
  | nil => rfl
  | cons c rest ih =>
    rw [splitAtTab]
    rw [if_neg (by intro hc; exact h (hc ▸ List.mem_cons_self c rest))]
    rw [ih (fun hm => h (List.mem_cons_of_mem c hm))]
    rfl

theorem splitAtTab_append (pre post : List Char) (h : '\t' ∉ pre) :
    splitAtTab (pre ++ '\t' :: post) = some (pre, post) := by
  induction pre with
  | nil => simp [splitAtTab]
  | cons c rest ih =>
    rw [List.cons_append, splitAtTab]
    rw [if_neg (by intro hc; exact h (hc ▸ List.mem_cons_self c rest))]
    rw [ih (fun hm => h (List.mem_cons_of_mem c hm))]
    rfl

theorem isJsSpace_of_isDigit (c : Char) (h : c.isDigit = true) : isJsSpace c = false := by
  rw [isJsSpace]
  have hne : ∀ x : Char, x.isDigit = false → c ≠ x := by
    intro x hx he
    rw [he, hx] at h
    exact Bool.false_ne_true h
  simp [hne ' ' (by decide), hne '\t' (by decide), hne '\n' (by decide),
    hne '\r' (by decide), hne '\x0b' (by decide), hne '\x0c' (by decide)]

/-- `parseInt(s, 10)` on a nonempty all-digit string is its decimal
value. -/
theorem jsParseInt10_all_digits (l : List Char) (h1 : l ≠ [])
    (h2 : ∀ c ∈ l, c.isDigit = true) :
    jsParseInt10 l = some (digitsToNat l) := by
  have hdrop : l.dropWhile isJsSpace = l := by
    cases l with
    | nil => rfl
    | cons c cs =>
      rw [List.dropWhile_cons, if_neg]
      rw [isJsSpace_of_isDigit c (h2 c (List.mem_cons_self c cs))]
      simp
  cases l with
  | nil => exact absurd rfl h1
  | cons c cs =>
    have hc : c.isDigit = true := h2 c (List.mem_cons_self c cs)
    have hcm : ¬ c = '-' := by intro he; rw [he] at hc; exact absurd hc (by decide)
    have hcp : ¬ c = '+' := by intro he; rw [he] at hc; exact absurd hc (by decide)
    have htake : (c :: cs).takeWhile Char.isDigit = c :: cs := by
      rw [List.takeWhile_eq_self_iff]
      exact h2
    rw [jsParseInt10]
    simp only [hdrop, if_neg hcm, if_neg hcp]
    simp only [htake]
    rw [if_neg (by simp)]
    simp

/-- C6: The output parser splits each line at the first tab character,
takes the part before the tab as a decimal kilobyte count and the part
after it as the path, and records `count * 1024` bytes for that path;
lines without a tab (including empty lines) are dropped. -/
theorem processLine_parses :
    (∀ (m : SizeMap) (pre post : List Char), '\t' ∉ pre → pre ≠ [] →
        (∀ c ∈ pre, c.isDigit = true) →
        processLine m (pre ++ '\t' :: post) =
          mapSet m (String.mk post) (.num ((decimalValue pre : Int) * 1024))) ∧
    (∀ (m : SizeMap) (line : List Char), '\t' ∉ line → processLine m line = m) := by
  constructor
  · intro m pre post htab hne hdig
    rw [processLine]
    rw [if_neg (by cases pre <;> simp)]
    rw [splitAtTab_append pre post htab]
    simp only
    rw [jsParseInt10_all_digits pre hne hdig, digitsToNat_eq_decimalValue]
    simp
  · intro m line htab
    cases line with
    | nil => rfl
    | cons c rest =>
      rw [processLine, if_neg (by simp), splitAtTab_of_not_mem _ htab]

/-- Closed instantiation of `processLine_parses`: the line `42<TAB>/a`
stores 43008 bytes for `/a`, and a tabless line is dropped. -/
theorem processLine_parses_witness :
    processLine [] ['4', '2', '\t', '/', 'a'] = [(String.mk ['/', 'a'], SizeVal.num 43008)] ∧
    processLine [] ['n', 'o', 't', 'a', 'b'] = [] := by
  constructor
  · have h := processLine_parses.1 [] ['4', '2'] ['/', 'a'] (by decide) (by decide) (by decide)
    have hv : (decimalValue ['4', '2'] : Int) * 1024 = 43008 := by decide
    rw [hv] at h
    exact h
  · exact processLine_parses.2 [] ['n', 'o', 't', 'a', 'b'] (by decide)

/-! ## Result Pipeline: `sortByAge` (src/scanner.ts lines 123-128),
`sortBySize` and `filterByAge` (CLI entry point)

JS `Array.prototype.sort(cmp)` is required to be a stable sort ordered by
the comparator (ES2019).  It is modelled as a stable insertion sort: each
element is inserted after every already-placed element it does not
strictly precede. -/

/-- The comparator of `sortByAge`:
`(a, b) => { const diff = a.modifiedAt.getTime() - b.modifiedAt.getTime();
return descending ? -diff : diff; }`. -/
def ageCmp (descending : Bool) (a b : NodeModulesInfo) : Int :=
  let diff := a.modifiedAt - b.modifiedAt
  if descending then -diff else diff

/-- The comparator of `sortBySize`:
`(a, b) => (b.size ?? 0) - (a.size ?? 0)` — unknown size counts as 0. -/
def sizeCmp (a b : NodeModulesInfo) : Int :=
  b.size.getD 0 - a.size.getD 0

/-- Stable insertion: place `x` before the first element `y` with
`cmp x y < 0`, i.e. after every element `x` ties with or loses to. -/
def insertBy (cmp : NodeModulesInfo → NodeModulesInfo → Int) (x : NodeModulesInfo) :
    List NodeModulesInfo → List NodeModulesInfo
  | [] => [x]
  | y :: ys => if cmp x y < 0 then x :: y :: ys else y :: insertBy cmp x ys

/-- `arr.sort(cmp)` as a stable sort: fold the input through stable
insertion. -/
def sortJS (cmp : NodeModulesInfo → NodeModulesInfo → Int)
    (l : List NodeModulesInfo) : List NodeModulesInfo :=
  l.foldl (fun acc x => insertBy cmp x acc) []

/-- `sortByAge(results, descending = true)`: copy and stably sort by
`modifiedAt` under `ageCmp`. -/
def sortByAge (results : List NodeModulesInfo) (descending : Bool) : List NodeModulesInfo :=
  sortJS (ageCmp descending) results

/-- `sortBySize(results)`: copy and stably sort descending by size,
unknown sizes counting as 0. -/
def sortBySize (results : List NodeModulesInfo) : List NodeModulesInfo :=
  sortJS sizeCmp results

/-- `filterByAge(results, olderThanDays)`: keep the records strictly older
than the cutoff `Date.now() - olderThanDays * 24 * 60 * 60 * 1000`.
`Date.now()` is read once per call, before the filter runs — it enters the
embedding as the single parameter `now`. -/
def filterByAge (results : List NodeModulesInfo) (olderThanDays : Int) (now : Int) :
    List NodeModulesInfo :=
  let cutoff := now - olderThanDays * 24 * 60 * 60 * 1000
  results.filter (fun r => r.modifiedAt < cutoff)

theorem mem_insertBy (cmp : NodeModulesInfo → NodeModulesInfo → Int)
    (x z : NodeModulesInfo) (l : List NodeModulesInfo) :
    z ∈ insertBy cmp x l ↔ z = x ∨ z ∈ l := by
  induction l with
  | nil => simp [insertBy]
  | cons y ys ih =>
    rw [insertBy]
    by_cases h : cmp x y < 0
    · rw [if_pos h]
      simp
    · rw [if_neg h]
      simp [ih]
      tauto

theorem insertBy_perm (cmp : NodeModulesInfo → NodeModulesInfo → Int)
    (x : NodeModulesInfo) (l : List NodeModulesInfo) :
    List.Perm (insertBy cmp x l) (x :: l) := by
  induction l with
  | nil => rfl
  | cons y ys ih =>
    rw [insertBy]
    by_cases h : cmp x y < 0
    · rw [if_pos h]
    · rw [if_neg h]
      exact ((ih.cons y).trans (List.Perm.swap x y ys) : _)

theorem insertBy_sorted (desc : Bool) (x : NodeModulesInfo) (l : List NodeModulesInfo)
    (h : l.Pairwise (fun a b => ageCmp desc a b ≤ 0)) :
    (insertBy (ageCmp desc) x l).Pairwise (fun a b => ageCmp desc a b ≤ 0) := by
  induction l with
  | nil => simp [insertBy]
  | cons y ys ih =>
    rw [List.pairwise_cons] at h
    obtain ⟨hy, hys⟩ := h
    rw [insertBy]
    by_cases hc : ageCmp desc x y < 0
    · rw [if_pos hc]
      refine List.Pairwise.cons ?_ (List.Pairwise.cons hy hys)
      intro z hz
      rcases List.mem_cons.mp hz with h1 | h1
      · subst h1
        cases desc <;> simp [ageCmp] at hc ⊢ <;> omega
      · have hy' := hy z h1
        cases desc <;> simp [ageCmp] at hc hy' ⊢ <;> omega
    · rw [if_neg hc]
      refine List.Pairwise.cons ?_ (ih hys)
      intro z hz
      rcases (mem_insertBy _ _ _ _).mp hz with h1 | h1
      · subst h1
        cases desc <;> simp [ageCmp] at hc ⊢ <;> omega
      · exact hy z h1

/-- The stability core: inserting `x` into a sorted list leaves the
subsequence of any fixed `modifiedAt` class equal to the old subsequence,
with `x` appended at its end when `x` belongs to the class. -/
theorem filter_insertBy (desc : Bool) (t : Int) (x : NodeModulesInfo)
    (l : List NodeModulesInfo) (h : l.Pairwise (fun a b => ageCmp desc a b ≤ 0)) :
    (insertBy (ageCmp desc) x l).filter (fun r => r.modifiedAt == t) =
      l.filter (fun r => r.modifiedAt == t) ++
        (if x.modifiedAt == t then [x] else []) := by
  induction l with
  | nil =>
    by_cases hx : x.modifiedAt = t <;> simp [insertBy, hx]
  | cons y ys ih =>
    rw [List.pairwise_cons] at h
    obtain ⟨hy, hys⟩ := h
    rw [insertBy]
    by_cases hc : ageCmp desc x y < 0
    · rw [if_pos hc]
      by_cases hx : x.modifiedAt = t
      · have hnone : ∀ z ∈ y :: ys, ¬ ((fun r => r.modifiedAt == t) z) = true := by
          intro z hz
          rcases List.mem_cons.mp hz with h1 | h1
          · subst h1
            cases desc <;> simp [ageCmp] at hc ⊢ <;> omega
          · have hy' := hy z h1
            cases desc <;> simp [ageCmp] at hc hy' ⊢ <;> omega
        rw [List.filter_cons_of_pos (by simp [hx])]
        rw [List.filter_eq_nil_iff.mpr hnone]
        simp [hx]
      · rw [List.filter_cons_of_neg (by simp [hx])]
        simp [hx]
    · rw [if_neg hc]
      by_cases hyt : y.modifiedAt = t
      · rw [List.filter_cons_of_pos (by simp [hyt]), List.filter_cons_of_pos (by simp [hyt])]
        rw [ih hys, List.cons_append]
      · rw [List.filter_cons_of_neg (by simp [hyt]), List.filter_cons_of_neg (by simp [hyt])]
        exact ih hys

theorem sortJS_foldl_sorted (desc : Bool) (l acc : List NodeModulesInfo)
    (h : acc.Pairwise (fun a b => ageCmp desc a b ≤ 0)) :
    (l.foldl (fun a x => insertBy (ageCmp desc) x a) acc).Pairwise
      (fun a b => ageCmp desc a b ≤ 0) := by
  induction l generalizing acc with
  | nil => exact h
  | cons x l ih =>
    rw [List.foldl_cons]
    exact ih _ (insertBy_sorted desc x acc h)

theorem sortJS_foldl_perm (cmp : NodeModulesInfo → NodeModulesInfo → Int)
    (l acc : List NodeModulesInfo) :
    List.Perm (l.foldl (fun a x => insertBy cmp x a) acc) (acc ++ l) := by
  induction l generalizing acc with
  | nil => simp
  | cons x l ih =>
    rw [List.foldl_cons]
    refine (ih (insertBy cmp x acc)).trans ?_
    refine (((insertBy_perm cmp x acc).append_right l).trans ?_)
    exact List.perm_middle.symm.trans (by simp)

theorem sortJS_foldl_filter (desc : Bool) (t : Int) (l acc : List NodeModulesInfo)
    (h : acc.Pairwise (fun a b => ageCmp desc a b ≤ 0)) :
    (l.foldl (fun a x => insertBy (ageCmp desc) x a) acc).filter
        (fun r => r.modifiedAt == t) =
      acc.filter (fun r => r.modifiedAt == t) ++ l.filter (fun r => r.modifiedAt == t) := by
  induction l generalizing acc with
  | nil => simp
  | cons x l ih =>
    rw [List.foldl_cons]
    rw [ih (insertBy (ageCmp desc) x acc) (insertBy_sorted desc x acc h)]
    rw [filter_insertBy desc t x acc h]
    by_cases hx : x.modifiedAt = t
    · simp [hx]
    · simp [hx]

/-- C7: `sortByAge` is a stable sort by `modifiedAt`: on records with
timestamps T1 < T2 < T3 it returns [T3, T2, T1] when `descending`
(newest-first) and [T1, T2, T3] otherwise; in general it returns a
permutation of its input sorted under the age comparator, and records
with equal timestamps keep their original relative order (the subsequence
of any fixed timestamp class is unchanged). -/
theorem sortByAge_stable_sort :
    (∀ r1 r2 r3 : NodeModulesInfo,
        r1.modifiedAt < r2.modifiedAt → r2.modifiedAt < r3.modifiedAt →
        sortByAge [r1, r2, r3] true = [r3, r2, r1] ∧
        sortByAge [r1, r2, r3] false = [r1, r2, r3]) ∧
    (∀ (l : List NodeModulesInfo) (descending : Bool),
        List.Perm (sortByAge l descending) l ∧
        (sortByAge l descending).Pairwise (fun a b => ageCmp descending a b ≤ 0)) ∧
    (∀ (l : List NodeModulesInfo) (descending : Bool) (t : Int),
        (sortByAge l descending).filter (fun r => r.modifiedAt == t) =
          l.filter (fun r => r.modifiedAt == t)) := by
  refine ⟨?_, ?_, ?_⟩
  · intro r1 r2 r3 h12 h23
    constructor
    · have c21 : ageCmp true r2 r1 < 0 := by simp [ageCmp]; omega
      have c32 : ageCmp true r3 r2 < 0 := by simp [ageCmp]; omega
      simp [sortByAge, sortJS, insertBy, c21, c32]
    · have c21 : ¬ ageCmp false r2 r1 < 0 := by simp [ageCmp]; omega
      have c31 : ¬ ageCmp false r3 r1 < 0 := by simp [ageCmp]; omega
      have c32 : ¬ ageCmp false r3 r2 < 0 := by simp [ageCmp]; omega
      simp [sortByAge, sortJS, insertBy, c21, c31, c32]
  · intro l descending
    constructor
    · exact (sortJS_foldl_perm (ageCmp descending) l []).trans (by simp)
    · exact sortJS_foldl_sorted descending l [] (by simp)
  · intro l descending t
    have h := sortJS_foldl_filter descending t l [] (by simp)
    simpa [sortByAge, sortJS] using h

/-- Closed instantiation of `sortByAge_stable_sort` on three records with
timestamps 1 < 2 < 3. -/
theorem sortByAge_stable_sort_witness :
    sortByAge [⟨["/old"], none, 1⟩, ⟨["/mid"], none, 2⟩, ⟨["/new"], none, 3⟩] true =
      [⟨["/new"], none, 3⟩, ⟨["/mid"], none, 2⟩, ⟨["/old"], none, 1⟩] ∧
    sortByAge [⟨["/old"], none, 1⟩, ⟨["/mid"], none, 2⟩, ⟨["/new"], none, 3⟩] false =
      [⟨["/old"], none, 1⟩, ⟨["/mid"], none, 2⟩, ⟨["/new"], none, 3⟩] :=
  sortByAge_stable_sort.1 _ _ _ (by decide) (by decide)

/-- C8: `filterByAge` returns a subsequence of its input holding exactly
the records whose `modifiedAt` is strictly before
`now - thresholdDays * 24 * 60 * 60 * 1000`, where `now` is the single
per-call capture of `Date.now()` (it enters the embedding once, as a
parameter); a record whose timestamp equals the cutoff — whose age is
exactly the threshold — is excluded. -/
theorem filterByAge_spec :
    (∀ (results : List NodeModulesInfo) (olderThanDays now : Int),
        (filterByAge results olderThanDays now).Sublist results) ∧
    (∀ (results : List NodeModulesInfo) (olderThanDays now : Int) (r : NodeModulesInfo),
        r ∈ filterByAge results olderThanDays now ↔
          r ∈ results ∧ r.modifiedAt < now - olderThanDays * 24 * 60 * 60 * 1000) ∧
    (∀ (results : List NodeModulesInfo) (olderThanDays now : Int) (r : NodeModulesInfo),
        r.modifiedAt = now - olderThanDays * 24 * 60 * 60 * 1000 →
        r ∉ filterByAge results olderThanDays now) := by
  refine ⟨?_, ?_, ?_⟩
  · intro results d n
    exact List.filter_sublist _
  · intro results d n r
    simp [filterByAge, List.mem_filter]
  · intro results d n r hb hmem
    rw [filterByAge] at hmem
    have h2 := (List.mem_filter.mp hmem).2
    simp at h2
    omega

/-- Closed instantiation of `filterByAge_spec`: with a 30-day threshold and
`now` exactly 30 days after a record's timestamp, the record is
excluded. -/
theorem filterByAge_spec_witness :
    (⟨["/x"], none, 0⟩ : NodeModulesInfo) ∉
      filterByAge [⟨["/x"], none, 0⟩] 30 2592000000 :=
  filterByAge_spec.2.2 [⟨["/x"], none, 0⟩] 30 2592000000 ⟨["/x"], none, 0⟩ (by decide)

/-! ## Aliasing model for the non-mutation claim

A minimal heap of JS arrays: a reference is an index into the store,
allocation appends.  `[...results]` is an allocation of a copy,
`Array.prototype.sort` is an in-place write to the array it is called on,
and `Array.prototype.filter` allocates a fresh array.  Non-mutation of the
input is the statement that the array at the input reference reads the
same before and after the call, and that the returned reference is a
different one. -/

abbrev ArrayStore := List (List NodeModulesInfo)

/-- Dereference (a dangling reference reads as an empty array). -/
def readArr (s : ArrayStore) (r : Nat) : List NodeModulesInfo := (s[r]?).getD []

/-- Allocate a fresh array holding `l`; returns the new store and the
fresh reference. -/
def allocArr (s : ArrayStore) (l : List NodeModulesInfo) : ArrayStore × Nat :=
  (s ++ [l], s.length)

/-- Overwrite the array at `r` in place. -/
def writeArr (s : ArrayStore) (r : Nat) (l : List NodeModulesInfo) : ArrayStore :=
  s.set r l

/-- `sortByAge` with its heap effects: `[...results]` allocates a copy,
`.sort(cmp)` mutates that copy in place, and the copy's reference is
returned; the input array `r` is only read. -/
def sortByAgeS (s : ArrayStore) (r : Nat) (descending : Bool) : ArrayStore × Nat :=
  let a := allocArr s (readArr s r)
  (writeArr a.1 a.2 (sortByAge (readArr a.1 a.2) descending), a.2)

/-- `sortBySize` with its heap effects; same copy-then-sort-in-place
shape as `sortByAgeS`. -/
def sortBySizeS (s : ArrayStore) (r : Nat) : ArrayStore × Nat :=
  let a := allocArr s (readArr s r)
  (writeArr a.1 a.2 (sortBySize (readArr a.1 a.2)), a.2)

/-- `filterByAge` with its heap effects: `.filter` allocates a fresh
array; the input array is only read. -/
def filterByAgeS (s : ArrayStore) (r : Nat) (olderThanDays now : Int) : ArrayStore × Nat :=
  allocArr s (filterByAge (readArr s r) olderThanDays now)

theorem readArr_alloc_lt (s : ArrayStore) (l : List NodeModulesInfo) (r : Nat)
    (h : r < s.length) : readArr (s ++ [l]) r = readArr s r := by
  rw [readArr, readArr, List.getElem?_append, if_pos h]

theorem readArr_set_ne (s : ArrayStore) (i : Nat) (l : List NodeModulesInfo) (r : Nat)
    (h : r ≠ i) : readArr (s.set i l) r = readArr s r := by
  rw [readArr, readArr, List.getElem?_set_ne (Ne.symm h)]

/-- C9: `sortByAge`, `sortBySize` and `filterByAge` are non-mutating: for
every store and valid input reference, after each call the input array
still holds exactly its old elements in their old order, and the returned
sequence is a new array (a reference distinct from the input). -/
theorem pipeline_non_mutating (s : ArrayStore) (r : Nat) (descending : Bool)
    (olderThanDays now : Int) (h : r < s.length) :
    (readArr (sortByAgeS s r descending).1 r = readArr s r ∧
      (sortByAgeS s r descending).2 ≠ r) ∧
    (readArr (sortBySizeS s r).1 r = readArr s r ∧ (sortBySizeS s r).2 ≠ r) ∧
    (readArr (filterByAgeS s r olderThanDays now).1 r = readArr s r ∧
      (filterByAgeS s r olderThanDays now).2 ≠ r) := by
  have hne : r ≠ s.length := by omega
  refine ⟨⟨?_, ?_⟩, ⟨?_, ?_⟩, ⟨?_, ?_⟩⟩
  · rw [sortByAgeS]
    simp only [allocArr, writeArr]
    rw [readArr_set_ne (s ++ [readArr s r]) s.length _ r hne]
    exact readArr_alloc_lt s _ r h
  · show s.length ≠ r
    omega
  · rw [sortBySizeS]
    simp only [allocArr, writeArr]
    rw [readArr_set_ne (s ++ [readArr s r]) s.length _ r hne]
    exact readArr_alloc_lt s _ r h
  · show s.length ≠ r
    omega
  · rw [filterByAgeS]
    simp only [allocArr]
    exact readArr_alloc_lt s _ r h
  · show s.length ≠ r
    omega

/-- Closed instantiation of `pipeline_non_mutating` on a one-array store. -/
theorem pipeline_non_mutating_witness :
    (readArr (sortByAgeS [[⟨["/x"], none, 5⟩]] 0 true).1 0 = [⟨["/x"], none, 5⟩] ∧
      (sortByAgeS [[⟨["/x"], none, 5⟩]] 0 true).2 ≠ 0) := by
  have h := pipeline_non_mutating [[⟨["/x"], none, 5⟩]] 0 true 30 0 (by decide)
  exact ⟨h.1.1.trans (by rfl), h.1.2⟩

end Nmc
